import Mathlib

/-!
Shallow embedding of `sphinxcontrib/doxylink/parsing.py`: a pyparsing grammar
for C++ declaration signatures and the `normalise` entry point.

Parsers operate on `List Char` and return `Option (result × remainder)`.
pyparsing semantics captured here:
* every token-level element skips leading whitespace (" \n\t") unless it sits
  inside a `Combine` (adjacent=True), which strips whitespace-skipping from its
  inner elements but still skips once in front of the whole combine;
* `^` (`Or`) picks the alternative consuming the most input, first on ties;
* `|` (`MatchFirst`) picks the first alternative that matches;
* `And` never backtracks: once an element matched, later failures propagate;
* `Optional`, `ZeroOrMore`, `OneOrMore` and `delimitedList` recover from a
  failing iteration by resetting to the position before it;
* `parseString` (parseAll=False) matches a prefix and ignores the rest.
Loops are written with an explicit fuel so that every definition is structural
and kernel-reducible; call sites pass `length + 1`, which is ample because
every loop iteration consumes at least one character.
-/

/-- Newline, carriage return, tab, backslash and single-quote characters,
named to keep character escapes out of the source. -/
def nlChar : Char := Char.ofNat 10

def crChar : Char := Char.ofNat 13

def tabChar : Char := Char.ofNat 9

def bsChar : Char := Char.ofNat 92

def sqChar : Char := Char.ofNat 39

def isWsChar (c : Char) : Bool := c == ' ' || c == nlChar || c == tabChar

/-- Keyword boundary characters: pyparsing's `alphanums + "_$"`. -/
def identChar (c : Char) : Bool := c.isAlphanum || c == '_' || c == '$'

/-- Characters of `Word(alphanums + ':_')` used for qualified type names. -/
def typeNameChar (c : Char) : Bool := c.isAlphanum || c == ':' || c == '_'

/-- Characters of `Word(alphanums + '_')` used for argument names. -/
def nameChar (c : Char) : Bool := c.isAlphanum || c == '_'

/-- Characters of `number = Word('-.' + nums)`. -/
def numberChar (c : Char) : Bool := c == '-' || c == '.' || c.isDigit

/-- Characters of `Word('|&^')` in `default_value`. -/
def bitOpChar (c : Char) : Bool := c == '|' || c == '&' || c == '^'

def skipWs (l : List Char) : List Char := l.dropWhile isWsChar

/-- `Literal` without leading whitespace skipping. -/
def litRaw (s : List Char) (l : List Char) : Option (List Char) :=
  if s.isPrefixOf l then some (l.drop s.length) else none

/-- `Literal`: skip leading whitespace, then match the exact string. -/
def litP (s : List Char) (l : List Char) : Option (List Char) := litRaw s (skipWs l)

/-- `Word(chars)` without leading whitespace skipping: a maximal nonempty run. -/
def wordRaw (p : Char → Bool) (l : List Char) : Option (String × List Char) :=
  let tok := l.takeWhile p
  if tok.isEmpty then none else some (String.mk tok, l.drop tok.length)

def wordP (p : Char → Bool) (l : List Char) : Option (String × List Char) :=
  wordRaw p (skipWs l)

/-- `Keyword(s)`: like `Literal` but the next character must not be an
identifier character.  (The preceding-character check of pyparsing is vacuous
in this grammar: keywords are only tried at positions following whitespace,
punctuation or a maximal identifier run.) -/
def keywordP (s : List Char) (l : List Char) : Option (String × List Char) :=
  match litRaw s (skipWs l) with
  | none => none
  | some r =>
    match r with
    | [] => some (String.mk s, [])
    | c :: _ => if identChar c then none else some (String.mk s, r)

/-- `^` (`Or`): longest match, left operand on ties. -/
def orLongest {α : Type} (a b : Option (α × List Char)) : Option (α × List Char) :=
  match a, b with
  | some x, some y => if y.2.length < x.2.length then some y else some x
  | some x, none => some x
  | none, b => b

def hexDigit (c : Char) : Bool :=
  c.isDigit || ('a' ≤ c && c ≤ 'f') || ('A' ≤ c && c ≤ 'F')

/-- Body of pyparsing's `quotedString` after the opening quote `q`: characters
other than the quote, backslash and newlines; doubled quotes; backslash
escapes (`\x` takes at least one hex digit).  Returns the remainder after the
closing quote. -/
def quotedBody (q : Char) : Nat → List Char → Option (List Char)
  | 0, _ => none
  | fuel + 1, l =>
    match l with
    | [] => none
    | c :: cs =>
      if c == q then
        match cs with
        | c2 :: cs2 =>
          if c2 == q then
            match quotedBody q fuel cs2 with
            | some r => some r
            | none => some cs
          else some cs
        | [] => some []
      else if c == bsChar then
        match cs with
        | [] => none
        | e :: cs2 =>
          if e == 'x' then
            let hx := cs2.takeWhile hexDigit
            if hx.isEmpty then none else quotedBody q fuel (cs2.drop hx.length)
          else quotedBody q fuel cs2
      else if c == nlChar || c == crChar then none
      else quotedBody q fuel cs

/-- `quotedString` without leading whitespace skipping; the token keeps its
quotes. -/
def quotedRaw (l : List Char) : Option (String × List Char) :=
  match l with
  | [] => none
  | c :: cs =>
    if c == '"' || c == sqChar then
      match quotedBody c cs.length cs with
      | some r => some (String.mk (l.take (l.length - r.length)), r)
      | none => none
    else none

def quotedP (l : List Char) : Option (String × List Char) := quotedRaw (skipWs l)

/-- Content token of `nestedExpr('<', '>')`: a maximal run of characters not in
`"<> \n\t"`, each position additionally guarded by `~quotedString`. -/
def contentRun : List Char → (List Char × List Char)
  | [] => ([], [])
  | c :: cs =>
    if isWsChar c || c == '<' || c == '>' then ([], c :: cs)
    else
      match quotedRaw (c :: cs) with
      | some _ => ([], c :: cs)
      | none =>
        let p := contentRun cs
        (c :: p.1, p.2)

def contentP (l : List Char) : Option (String × List Char) :=
  match contentRun (skipWs l) with
  | ([], _) => none
  | (tok, r) => some (String.mk tok, r)

/-- The parse action `turn_parseresults_to_list` fires on every nested match of
`angle_bracket_pair` (the grammar's `Forward` is self-referential), so by the
time an enclosing region is converted, all its nested regions are already flat
strings.  `normalise_templates` applied to a list of strings is therefore
exactly this: `<`, a space before every token, `>` preceded by one space. -/
def regionStr (items : List String) : String :=
  "<" ++ items.foldr (fun s acc => (" " ++ s) ++ acc) " >"

/- The token structure handed to `normalise_templates`: pyparsing's nested
`ParseResults`, a list whose members are strings or nested lists. -/
mutual
inductive PTok where
  | str : String → PTok
  | nested : PList → PTok
inductive PList where
  | nil : PList
  | cons : PTok → PList → PList
end

/- `normalise_templates` as written in the source: `'<'`, then `' ' + tok` for
a string and a bare recursive flattening for a nested list, then `' >'`. -/
mutual
def tplElem : PTok → String
  | .str s => " " ++ s
  | .nested ts => "<" ++ tplElems ts ++ " >"
def tplElems : PList → String
  | .nil => ""
  | .cons t ts => tplElem t ++ tplElems ts
end

def normalise_templates (toks : PList) : String := "<" ++ tplElems toks ++ " >"

/- The flattening the composed grammar actually performs: because the parse
action also ran on every nested region, a nested region reaches the enclosing
`normalise_templates` call as an already-flat string and so is preceded by a
space like any other token. -/
mutual
def itemStr : PTok → String
  | .str s => s
  | .nested ts => regionStr (pipeItems ts)
def pipeItems : PList → List String
  | .nil => []
  | .cons t ts => itemStr t :: pipeItems ts
end

def pipeRegion (ts : PList) : String := regionStr (pipeItems ts)

/-- Characters allowed in a plain (content) template token: no whitespace, no
angle bracket, no quote. -/
def okTokChar (c : Char) : Bool :=
  !(isWsChar c || c == '<' || c == '>' || c == '"' || c == sqChar)

mutual
def ptokWf : PTok → Bool
  | .str s => !s.data.isEmpty && s.data.all okTokChar
  | .nested ts => plistWf ts
def plistWf : PList → Bool
  | .nil => true
  | .cons t ts => ptokWf t && plistWf ts
end

/-- The `ZeroOrMore(ignoreExpr | ret | content)` loop inside
`nestedExpr(opener='<', closer='>')`, with nested regions already flattened to
strings by the parse action. -/
def angleLoop : Nat → List Char → (List String × List Char)
  | 0, l => ([], l)
  | fuel + 1, l =>
    match quotedP l with
    | some (s, r) =>
      let p := angleLoop fuel r
      (s :: p.1, p.2)
    | none =>
      match skipWs l with
      | '<' :: r =>
        let inner := angleLoop fuel r
        (match skipWs inner.2 with
         | '>' :: r2 =>
           let p := angleLoop fuel r2
           (regionStr inner.1 :: p.1, p.2)
         | _ => ([], l))
      | _ =>
        match contentP l with
        | some (s, r) =>
          let p := angleLoop fuel r
          (s :: p.1, p.2)
        | none => ([], l)

/-- `angle_bracket_pair` without leading whitespace skipping (as copied inside
the `Combine` of `nonfundamental_input_type`), returning the token list of the
region. -/
def angleItemsRaw (fuel : Nat) (l : List Char) : Option (List String × List Char) :=
  match l with
  | '<' :: r =>
    let p := angleLoop fuel r
    (match skipWs p.2 with
     | '>' :: r2 => some (p.1, r2)
     | _ => none)
  | _ => none

/-- `angle_bracket_pair` with its parse action, no leading whitespace skip. -/
def angle_bracket_pairRaw (l : List Char) : Option (String × List Char) :=
  match angleItemsRaw l.length l with
  | some (ts, r) => some (regionStr ts, r)
  | none => none

/-- `angle_bracket_pair` as used outside `Combine` (normal whitespace skip). -/
def angle_bracket_pairP (l : List Char) : Option (String × List Char) :=
  angle_bracket_pairRaw (skipWs l)

/-- `parentheses_pair = LPAR + SkipTo(RPAR) + RPAR`: consume through the first
`)` after the opening `(`. -/
def parentheses_pair (l : List Char) : Option (List Char) :=
  match litP "(".data l with
  | none => none
  | some r =>
    match r.dropWhile (fun c => !(c == ')')) with
    | ')' :: r2 => some r2
    | _ => none

/-- `square_bracket_pair = LBRACK + SkipTo(RBRACK) + RBRACK`. -/
def square_bracket_pair (l : List Char) : Option (List Char) :=
  match litP "[".data l with
  | none => none
  | some r =>
    match r.dropWhile (fun c => !(c == ']')) with
    | ']' :: r2 => some r2
    | _ => none

/-- `OneOrMore` collecting string tokens. -/
def oneOrMoreStr (p : List Char → Option (String × List Char)) :
    Nat → List Char → Option (List String × List Char)
  | 0, _ => none
  | fuel + 1, l =>
    match p l with
    | none => none
    | some (s, r) =>
      match oneOrMoreStr p fuel r with
      | none => some ([s], r)
      | some (ss, r') => some (s :: ss, r')

/-- `OneOrMore` keeping only the remainder (matched text is discarded). -/
def manyRem (p : List Char → Option (List Char)) : Nat → List Char → Option (List Char)
  | 0, _ => none
  | fuel + 1, l =>
    match p l with
    | none => none
    | some r =>
      match manyRem p fuel r with
      | none => some r
      | some r' => some r'

/-- The keyword alternation inside `qualifier`. -/
def qualifierKw (l : List Char) : Option (String × List Char) :=
  orLongest (orLongest (orLongest
    (keywordP "const".data l) (keywordP "typename".data l))
    (keywordP "struct".data l)) (keywordP "enum".data l)

/-- `qualifier = ungroup(OneOrMore(const ^ typename ^ struct ^ enum) + ' '.join)`. -/
def qualifier (l : List Char) : Option (String × List Char) :=
  (oneOrMoreStr qualifierKw (l.length + 1) l).map (fun p => (String.intercalate " " p.1, p.2))

/-- The keyword alternation inside `fundamental_input_type`. -/
def fundamentalKw (l : List Char) : Option (String × List Char) :=
  orLongest (orLongest (orLongest (orLongest (orLongest (orLongest (orLongest (orLongest
    (keywordP "bool".data l) (keywordP "short".data l)) (keywordP "int".data l))
    (keywordP "long".data l)) (keywordP "signed".data l)) (keywordP "unsigned".data l))
    (keywordP "char".data l)) (keywordP "float".data l)) (keywordP "double".data l)

/-- `fundamental_input_type = OneOrMore(bool ^ short ^ int ^ ...)`. -/
def fundamental_input_type (l : List Char) : Option (List String × List Char) :=
  oneOrMoreStr fundamentalKw (l.length + 1) l

/-- `nonfundamental_input_type = Combine(Word(alphanums + ':_') +
Optional(angle_bracket_pair + Optional(Word(alphanums + ':_'))))`: inside the
combine nothing skips whitespace, so the template region and the trailing name
must be adjacent. -/
def nonfundamental_input_type (l : List Char) : Option (String × List Char) :=
  match wordRaw typeNameChar (skipWs l) with
  | none => none
  | some (w, r1) =>
    match angle_bracket_pairRaw r1 with
    | none => some (w, r1)
    | some (fl, r2) =>
      match wordRaw typeNameChar r2 with
      | none => some (w ++ fl, r2)
      | some (w2, r3) => some (w ++ fl ++ w2, r3)

/-- `input_type = fundamental_input_type ^ nonfundamental_input_type`, with the
`' '.join` parse action attached in `argument_type`. -/
def input_type (l : List Char) : Option (String × List Char) :=
  orLongest ((fundamental_input_type l).map (fun p => (String.intercalate " " p.1, p.2)))
    (nonfundamental_input_type l)

/-- `pointer_or_reference = Combine(oneOf('* &') + Optional('...'))`. -/
def pointer_or_reference (l : List Char) : Option (String × List Char) :=
  match skipWs l with
  | [] => none
  | c :: r =>
    if c == '*' || c == '&' then
      if "...".data.isPrefixOf r then some (String.mk [c] ++ "...", r.drop 3)
      else some (String.mk [c], r)
    else none

/-- One alternative of `input_name = OneOrMore(Word(alphanums + '_') |
angle_bracket_pair | parentheses_pair | square_bracket_pair)`. -/
def inputNameItem (l : List Char) : Option (List Char) :=
  match wordP nameChar l with
  | some (_, r) => some r
  | none =>
    match angle_bracket_pairP l with
    | some (_, r) => some r
    | none =>
      match parentheses_pair l with
      | some r => some r
      | none => square_bracket_pair l

def input_name (l : List Char) : Option (List Char) :=
  manyRem inputNameItem (l.length + 1) l

/-- One alternative of the `OneOrMore` in `default_value = Literal('=') +
OneOrMore(number | quotedString | input_type | parentheses_pair |
angle_bracket_pair | square_bracket_pair | Word('|&^'))`. -/
def defaultValueItem (l : List Char) : Option (List Char) :=
  match wordP numberChar l with
  | some (_, r) => some r
  | none =>
    match quotedP l with
    | some (_, r) => some r
    | none =>
      match input_type l with
      | some (_, r) => some r
      | none =>
        match parentheses_pair l with
        | some r => some r
        | none =>
          match angle_bracket_pairP l with
          | some (_, r) => some r
          | none =>
            match square_bracket_pair l with
            | some r => some r
            | none => (wordP bitOpChar l).map (fun p => p.2)

def default_value (l : List Char) : Option (List Char) :=
  match litP "=".data l with
  | none => none
  | some r => manyRem defaultValueItem (r.length + 1) r

/-- The named results of one parsed `argument` that `normalise` reads; the
argument name and default value are consumed but never stored. -/
structure Arg where
  qualifier : String
  input_type : String
  pointer_or_reference1 : String
  const_pointer_or_reference : String
  pointer_or_reference2 : String
deriving DecidableEq

/-- `argument_type = Optional(qualifier, '') + input_type +
Optional(pointer_or_reference, '') + Optional('const') +
Optional(pointer_or_reference, '')`. -/
def argument_type (l : List Char) : Option (Arg × List Char) :=
  let qr := match qualifier l with | some p => p | none => ("", l)
  match input_type qr.2 with
  | none => none
  | some (t, r1) =>
    let p1r := match pointer_or_reference r1 with | some p => p | none => ("", r1)
    let cpr := match litP "const".data p1r.2 with
               | some r => ("const", r)
               | none => (("" : String), p1r.2)
    let p2r := match pointer_or_reference cpr.2 with | some p => p | none => ("", cpr.2)
    some ({ qualifier := qr.1, input_type := t, pointer_or_reference1 := p1r.1,
            const_pointer_or_reference := cpr.1, pointer_or_reference2 := p2r.1 }, p2r.2)

/-- `argument = Group(argument_type + Optional(input_name) + Optional(default_value))`. -/
def argument (l : List Char) : Option (Arg × List Char) :=
  match argument_type l with
  | none => none
  | some (a, r) =>
    let r1 := match input_name r with | some r' => r' | none => r
    let r2 := match default_value r1 with | some r' => r' | none => r1
    some (a, r2)

/-- The `ZeroOrMore(Suppress(',') + argument)` part of `delimitedList`; a
failing iteration resets to the position before its comma. -/
def delimLoop : Nat → List Char → (List Arg × List Char)
  | 0, l => ([], l)
  | fuel + 1, l =>
    match litP ",".data l with
    | none => ([], l)
    | some r =>
      match argument r with
      | none => ([], l)
      | some (a, r1) =>
        let p := delimLoop fuel r1
        (a :: p.1, p.2)

/-- `arglist = LPAR + delimitedList(argument)('arg_list') +
Optional(COMMA + '...')('var_args') + RPAR`; result is
`(arg_list, var_args, remainder)` — like `parseString` the remainder is not
required to be empty. -/
def arglist (l : List Char) : Option (List Arg × Bool × List Char) :=
  match litP "(".data l with
  | none => none
  | some r =>
    match argument r with
    | none => none
    | some (a, r1) =>
      let more := delimLoop (r1.length + 1) r1
      let va :=
        match litP ",".data more.2 with
        | some x =>
          match litP "...".data x with
          | some r' => (true, r')
          | none => (false, more.2)
        | none => (false, more.2)
      match litP ")".data va.2 with
      | none => none
      | some r4 => some (a :: more.1, va.1, r4)

/-- Python's `str.replace(pat, rep)`: non-overlapping, left to right. -/
def replaceGo (pat rep : List Char) : Nat → List Char → List Char
  | 0, l => l
  | fuel + 1, l =>
    match l with
    | [] => []
    | c :: cs =>
      if pat.isPrefixOf l then rep ++ replaceGo pat rep fuel (l.drop pat.length)
      else c :: replaceGo pat rep fuel cs

def pyReplace (l pat rep : List Char) : List Char := replaceGo pat rep l.length l

/-- Python's substring test `pat in l`. -/
def containsSub (pat : List Char) : List Char → Bool
  | [] => pat.isEmpty
  | c :: cs => pat.isPrefixOf (c :: cs) || containsSub pat cs

/-- Python's `str.rindex`: index of the last occurrence. -/
def rindexL : List Char → Char → Option Nat
  | [], _ => none
  | c :: cs, t =>
    match rindexL cs t with
    | some i => some (i + 1)
    | none => if c == t then some 0 else none

/-- The observable outcomes of `normalise`: a returned pair, the trailing
`return None`, the re-raised `ValueError` from `rindex`, and the propagated
`ParseException`. -/
inductive NormOutcome where
  | ret : String × String → NormOutcome
  | retNone : NormOutcome
  | valueError : NormOutcome
  | parseException : NormOutcome
deriving DecidableEq

/-- The per-argument normalised string `normalise` builds: optional qualifier
plus space, the input type, then marker1, an embedded space-padded `const` if
present, and marker2. -/
def renderArg (arg : Arg) : String :=
  String.join ([""]
    ++ (if arg.qualifier != "" then [arg.qualifier ++ " "] else [])
    ++ [arg.input_type]
    ++ ([arg.pointer_or_reference1]
        ++ (if arg.const_pointer_or_reference != "" then
              [" " ++ arg.const_pointer_or_reference ++ " "] else [])
        ++ [arg.pointer_or_reference2]))

/-- The `else` block of `normalise`'s parsing `try`: every path in the Python
block ends in a `return`, which this encoding makes explicit as `some`. -/
def elseBlock (function_name : String) (arg_list : List Arg) (var_args : Bool)
    (arglist_suffix : List Char) : Option (String × String) :=
  let rendered := arg_list.map renderArg
  let withVa := if var_args then rendered ++ ["..."] else rendered
  let core := "(" ++ String.intercalate ", " withVa ++ ")"
  let full := if containsSub "const".data arglist_suffix then core ++ " const" else core
  some (function_name, full)

/-- The part of `normalise` after the fast path: split at the last `)`,
reparse, and rebuild; `ValueError` when there is no `)`, `ParseException` when
the grammar fails, and the trailing `return None` if the `else` block were ever
to fall through. -/
def grammarPath (function_name : String) (arglist_input_string : List Char) : NormOutcome :=
  match rindexL arglist_input_string ')' with
  | none => .valueError
  | some closing_bracket_location =>
    let arglist_suffix := arglist_input_string.drop (closing_bracket_location + 1)
    let region := arglist_input_string.take (closing_bracket_location + 1)
    match arglist region with
    | none => .parseException
    | some (args, va, _) =>
      match elseBlock function_name args va arglist_suffix with
      | some p => .ret p
      | none => .retNone

/-- The fast-path stripping: remove `" override"`, then `" final"`, then all
spaces. -/
def stripFastSuffix (l : List Char) : List Char :=
  pyReplace (pyReplace (pyReplace l " override".data "".data) " final".data "".data)
    " ".data "".data

/-- `normalise(symbol)`: split a C++ symbol into the qualified name and a
normalised argument list. -/
def normalise (symbol : String) : NormOutcome :=
  match List.findIdx? (fun c => c == '(') symbol.data with
  | none => .ret (symbol, "")
  | some bracket_location =>
    let function_name := String.mk (symbol.data.take bracket_location)
    let arglist_input_string := symbol.data.drop bracket_location
    if "()".data.isPrefixOf arglist_input_string then
      let s := stripFastSuffix arglist_input_string
      if s = "()".data ∨ s = "()=0".data ∨ s = "()=default".data then
        .ret (function_name, "()")
      else if s = "()const".data ∨ s = "()const=0".data then
        .ret (function_name, "() const")
      else grammarPath function_name arglist_input_string
    else grammarPath function_name arglist_input_string

/-- True exactly when `normalise` returns through the empty-argument-list fast
path. -/
def fastPathTaken (symbol : String) : Bool :=
  match List.findIdx? (fun c => c == '(') symbol.data with
  | none => false
  | some bracket_location =>
    let arglist_input_string := symbol.data.drop bracket_location
    "()".data.isPrefixOf arglist_input_string &&
      (let s := stripFastSuffix arglist_input_string
       s == "()".data || s == "()=0".data || s == "()=default".data ||
         s == "()const".data || s == "()const=0".data)

/-- `normalise` with the fast path removed: every input with a `(` goes
through the argument grammar.  This is the comparison point for the spec's
statement that the fast path is a pure optimisation. -/
def normaliseFull (symbol : String) : NormOutcome :=
  match List.findIdx? (fun c => c == '(') symbol.data with
  | none => .ret (symbol, "")
  | some bracket_location =>
    grammarPath (String.mk (symbol.data.take bracket_location))
      (symbol.data.drop bracket_location)

def headWs (s : String) : Bool :=
  match s.data with
  | [] => false
  | c :: _ => isWsChar c

def lastWs (s : String) : Bool :=
  match s.data.getLast? with
  | some c => isWsChar c
  | none => false

/-- The elements that may appear in a flattened template region: ordinary
tokens — nonempty, not starting or ending in whitespace — and flattened
regions, recursively of the same shape. -/
inductive ItemOk : String → Prop where
  | tok : ∀ s : String, s.data ≠ [] → headWs s = false → lastWs s = false → ItemOk s
  | region : ∀ items : List String, (∀ i ∈ items, ItemOk i) → ItemOk (regionStr items)

def innerChars (ts : PList) : List Char :=
  ((pipeItems ts).map (fun i => ' ' :: i.data)).flatten

theorem renderArg_data (a : Arg) : (renderArg a).data =
    (if a.qualifier != "" then a.qualifier.data ++ [' '] else []) ++ a.input_type.data
      ++ a.pointer_or_reference1.data
      ++ (if a.const_pointer_or_reference != "" then
            ' ' :: (a.const_pointer_or_reference.data ++ [' ']) else [])
      ++ a.pointer_or_reference2.data := by
  unfold renderArg
  cases hq : (a.qualifier != "") <;> cases hc : (a.const_pointer_or_reference != "") <;>
    simp [hq, hc, String.join, String.data_append]

/-- C3: an input with no `(` is returned unchanged as the name, with an empty
argument-list string, and `normalise` neither parses nor fails. -/
theorem normalise_bare_symbol (symbol : String) (h : '(' ∉ symbol.data) :
    normalise symbol = .ret (symbol, "") := by
  have hidx : List.findIdx? (fun c => c == '(') symbol.data = none := by
    rw [List.findIdx?_eq_none_iff]
    intro x hx
    simp only [beq_eq_false_iff_ne, ne_eq]
    exact fun he => h (he ▸ hx)
  simp [normalise, hidx]

theorem normalise_bare_symbol_witness :
    '(' ∉ ("PolyVox::Volume" : String).data ∧
      normalise "PolyVox::Volume" = .ret ("PolyVox::Volume", "") := by
  exact ⟨by decide, normalise_bare_symbol "PolyVox::Volume" (by decide)⟩

/-- C9: `normalise` always either returns a pair of strings or fails with the
`ValueError` re-raised at the missing closing bracket or with the propagated
`ParseException`; the trailing `return None` is unreachable. -/
theorem normalise_total_outcomes (symbol : String) :
    ((∃ p, normalise symbol = .ret p) ∨ normalise symbol = .valueError ∨
      normalise symbol = .parseException) ∧ normalise symbol ≠ .retNone := by
  have hg : ∀ (fn : String) (l : List Char),
      (∃ p, grammarPath fn l = .ret p) ∨ grammarPath fn l = .valueError ∨
        grammarPath fn l = .parseException := by
    intro fn l
    unfold grammarPath
    split
    · exact Or.inr (Or.inl rfl)
    · dsimp only
      split
      · exact Or.inr (Or.inr rfl)
      · exact Or.inl ⟨_, rfl⟩
  have main : (∃ p, normalise symbol = .ret p) ∨ normalise symbol = .valueError ∨
      normalise symbol = .parseException := by
    unfold normalise
    split
    · exact Or.inl ⟨_, rfl⟩
    · dsimp only
      split
      · split
        · exact Or.inl ⟨_, rfl⟩
        · split
          · exact Or.inl ⟨_, rfl⟩
          · exact hg _ _
      · exact hg _ _
  refine ⟨main, ?_⟩
  rcases main with ⟨p, hp⟩ | hp | hp <;> rw [hp] <;> simp

/-- C10: an argument with an embedded `const` between the marker slots and no
second marker renders with a trailing space, and that space survives into the
normalised argument list, before the following comma and before the closing
parenthesis. -/
theorem renderArg_embedded_const_trailing_space (a : Arg)
    (h1 : a.const_pointer_or_reference ≠ "") (h2 : a.pointer_or_reference2 = "") :
    (renderArg a).data.getLast? = some ' ' ∧
    normalise "f(int * const, int)" = .ret ("f", "(int* const , int)") ∧
    normalise "f(int * const)" = .ret ("f", "(int* const )") := by
  refine ⟨?_, by decide, by decide⟩
  have hd := renderArg_data a
  have hc : (a.const_pointer_or_reference != "") = true := by
    simpa using h1
  rw [hc, if_pos rfl, h2] at hd
  have : (renderArg a).data =
      ((if a.qualifier != "" then a.qualifier.data ++ [' '] else []) ++ a.input_type.data
        ++ a.pointer_or_reference1.data ++ (' ' :: a.const_pointer_or_reference.data)) ++ [' '] := by
    rw [hd]
    simp [List.append_assoc]
  rw [this, List.getLast?_concat]

theorem renderArg_embedded_const_trailing_space_witness :
    let a : Arg := { qualifier := "", input_type := "int", pointer_or_reference1 := "*",
                     const_pointer_or_reference := "const", pointer_or_reference2 := "" }
    a.const_pointer_or_reference ≠ "" ∧ a.pointer_or_reference2 = "" ∧
      ((renderArg a).data.getLast? = some ' ' ∧
        normalise "f(int * const, int)" = .ret ("f", "(int* const , int)") ∧
        normalise "f(int * const)" = .ret ("f", "(int* const )")) := by
  exact ⟨by decide, by decide,
    renderArg_embedded_const_trailing_space _ (by decide) (by decide)⟩

/-- C4, counterexample: the two inputs differ only in whitespace between the
tokens `Foo` and `<T>`, yet they normalise to different argument lists — with
the space, the template region is no longer adjacent to the type name inside
`Combine`, so it is consumed as (discarded) argument-name text. -/
theorem whitespace_sensitivity_cex :
    normalise "f(Foo<T> x)" = .ret ("f", "(Foo< T >)") ∧
    normalise "f(Foo <T> x)" = .ret ("f", "(Foo)") ∧
    ("(Foo< T >)" : String) ≠ "(Foo)" := by
  exact ⟨by decide, by decide, by decide⟩

/-- C4, amended: argument-name and default-value text never influence the
parsed `Arg` (the `argument` rule returns exactly what `argument_type`
produced and merely consumes the rest), and whitespace around pointer markers
and between name tokens is immaterial, as in `int*foo` versus `int * foo`;
but whitespace between a type name and its template-argument bracket does
change the result. -/
theorem argument_name_insensitive :
    (∀ l : List Char, (argument l).map Prod.fst = (argument_type l).map Prod.fst) ∧
    normalise "f(int*foo)" = normalise "f(int * foo)" ∧
    normalise "f(const QString&x)" = normalise "f( const QString & y )" := by
  refine ⟨?_, by decide, by decide⟩
  intro l
  unfold argument
  cases argument_type l with
  | none => rfl
  | some p => rfl

/-- When the input has a `(` and the fast path does not fire, `normalise` is
the grammar path applied to the name and the region from the first `(`. -/
theorem normalise_eq_grammarPath (symbol : String) (i : Nat)
    (hidx : List.findIdx? (fun c => c == '(') symbol.data = some i)
    (hfast : fastPathTaken symbol = false) :
    normalise symbol =
      grammarPath (String.mk (symbol.data.take i)) (symbol.data.drop i) := by
  unfold fastPathTaken at hfast
  rw [hidx] at hfast
  simp only [Bool.and_eq_false_imp] at hfast
  unfold normalise
  rw [hidx]
  dsimp only
  cases hpre : "()".data.isPrefixOf (symbol.data.drop i) with
  | false => simp [hpre]
  | true =>
    have hmem := hfast hpre
    simp only [Bool.or_eq_false_iff, beq_eq_false_iff_ne, ne_eq] at hmem
    simp [hpre, hmem.1.1.1.1, hmem.1.1.1.2, hmem.1.1.2, hmem.1.2, hmem.2]

/-- C1: off the fast path, the region up to the last `)` is reparsed (the text
after it is the suffix), and a successful parse yields the name together with
the rendered arguments joined by `", "` in parentheses, a final `...` element
when variadic, and `" const"` appended exactly when the suffix contains
`const`. -/
theorem normalise_grammar_result (symbol : String) (i cb : Nat) (args : List Arg)
    (va : Bool) (rest : List Char)
    (hidx : List.findIdx? (fun c => c == '(') symbol.data = some i)
    (hfast : fastPathTaken symbol = false)
    (hcb : rindexL (symbol.data.drop i) ')' = some cb)
    (hparse : arglist ((symbol.data.drop i).take (cb + 1)) = some (args, va, rest)) :
    normalise symbol = .ret (String.mk (symbol.data.take i),
      (let withVa := if va then args.map renderArg ++ ["..."] else args.map renderArg
       let core := "(" ++ String.intercalate ", " withVa ++ ")"
       if containsSub "const".data ((symbol.data.drop i).drop (cb + 1)) then core ++ " const"
       else core)) := by
  rw [normalise_eq_grammarPath symbol i hidx hfast]
  unfold grammarPath
  rw [hcb]
  dsimp only
  rw [hparse]
  rfl

theorem normalise_grammar_result_witness :
    (List.findIdx? (fun c => c == '(') ("Foo::bar(const QString &) const" : String).data
        = some 8) ∧
    fastPathTaken "Foo::bar(const QString &) const" = false ∧
    rindexL (("Foo::bar(const QString &) const" : String).data.drop 8) ')' = some 16 ∧
    arglist ((("Foo::bar(const QString &) const" : String).data.drop 8).take 17) =
      some ([{ qualifier := "const", input_type := "QString", pointer_or_reference1 := "&",
               const_pointer_or_reference := "", pointer_or_reference2 := "" }], false, []) ∧
    normalise "Foo::bar(const QString &) const" = .ret ("Foo::bar", "(const QString&) const") := by
  refine ⟨by decide, by decide, by decide, by decide, ?_⟩
  exact (normalise_grammar_result "Foo::bar(const QString &) const" 8 16
    [{ qualifier := "const", input_type := "QString", pointer_or_reference1 := "&",
       const_pointer_or_reference := "", pointer_or_reference2 := "" }] false []
    (by decide) (by decide) (by decide) (by decide)).trans (by decide)

theorem orLongest_eq_some {α : Type} (a b : Option (α × List Char)) (x : α × List Char)
    (h : orLongest a b = some x) : a = some x ∨ b = some x := by
  unfold orLongest at h
  cases a with
  | none => exact Or.inr h
  | some y =>
    cases b with
    | none => exact Or.inl h
    | some z =>
      dsimp only at h
      by_cases hlt : z.2.length < y.2.length
      · rw [if_pos hlt] at h; exact Or.inr h
      · rw [if_neg hlt] at h; exact Or.inl h

theorem keywordP_eq (s l : List Char) (t : String) (r : List Char)
    (h : keywordP s l = some (t, r)) : t = String.mk s := by
  unfold keywordP at h
  cases hl : litRaw s (skipWs l) with
  | none => rw [hl] at h; exact absurd h (by simp)
  | some r2 =>
    rw [hl] at h
    cases r2 with
    | nil => simp at h; exact h.1.symm
    | cons c cs =>
      by_cases hc : identChar c = true
      · simp [hc] at h
      · simp [hc] at h; exact h.1.symm

theorem fundamentalKw_ne (l : List Char) (t : String) (r : List Char)
    (h : fundamentalKw l = some (t, r)) : t.data ≠ [] := by
  unfold fundamentalKw at h
  rcases orLongest_eq_some _ _ _ h with h | h
  rcases orLongest_eq_some _ _ _ h with h | h
  rcases orLongest_eq_some _ _ _ h with h | h
  rcases orLongest_eq_some _ _ _ h with h | h
  rcases orLongest_eq_some _ _ _ h with h | h
  rcases orLongest_eq_some _ _ _ h with h | h
  rcases orLongest_eq_some _ _ _ h with h | h
  rcases orLongest_eq_some _ _ _ h with h | h
  all_goals rw [keywordP_eq _ _ _ _ h]
  all_goals decide

theorem oneOrMoreStr_head (p : List Char → Option (String × List Char)) (fuel : Nat)
    (l : List Char) (ss : List String) (r : List Char)
    (h : oneOrMoreStr p fuel l = some (ss, r)) :
    ∃ s0 tl r0, ss = s0 :: tl ∧ p l = some (s0, r0) := by
  cases fuel with
  | zero => exact absurd h (by simp [oneOrMoreStr])
  | succ fuel =>
    unfold oneOrMoreStr at h
    cases hp : p l with
    | none => rw [hp] at h; exact absurd h (by simp)
    | some pr =>
      obtain ⟨s0, r0⟩ := pr
      rw [hp] at h
      dsimp only at h
      cases hrec : oneOrMoreStr p fuel r0 with
      | none => rw [hrec] at h; simp at h; exact ⟨s0, [], r0, by simp [h.1.symm], rfl⟩
      | some pr2 => rw [hrec] at h; simp at h; exact ⟨s0, pr2.1, r0, by simp [h.1.symm], rfl⟩

theorem intercalate_go_data (sep : String) (xs : List String) (acc : String) :
    ∃ t, (String.intercalate.go acc sep xs).data = acc.data ++ t := by
  induction xs generalizing acc with
  | nil => exact ⟨[], by simp [String.intercalate.go]⟩
  | cons x xs ih =>
    obtain ⟨t, ht⟩ := ih (acc ++ sep ++ x)
    refine ⟨sep.data ++ x.data ++ t, ?_⟩
    rw [String.intercalate.go, ht]
    simp [String.data_append]

theorem intercalate_cons_data (sep : String) (s0 : String) (tl : List String) :
    ∃ t, (String.intercalate sep (s0 :: tl)).data = s0.data ++ t := by
  unfold String.intercalate
  exact intercalate_go_data sep tl s0

theorem wordRaw_ne (p : Char → Bool) (l : List Char) (t : String) (r : List Char)
    (h : wordRaw p l = some (t, r)) : t.data ≠ [] := by
  unfold wordRaw at h
  by_cases he : (l.takeWhile p).isEmpty = true
  · simp [he] at h
  · simp only [he, if_neg] at h
    simp at h
    rw [← h.1]
    simpa [List.isEmpty_iff] using he

theorem nonfundamental_ne (l : List Char) (t : String) (r : List Char)
    (h : nonfundamental_input_type l = some (t, r)) : t.data ≠ [] := by
  unfold nonfundamental_input_type at h
  cases hw : wordRaw typeNameChar (skipWs l) with
  | none => rw [hw] at h; exact absurd h (by simp)
  | some pr =>
    obtain ⟨w, r1⟩ := pr
    have hwne := wordRaw_ne _ _ _ _ hw
    rw [hw] at h
    dsimp only at h
    cases ha : angle_bracket_pairRaw r1 with
    | none =>
      rw [ha] at h; simp at h
      rw [← h.1]; exact hwne
    | some pr2 =>
      obtain ⟨fl, r2⟩ := pr2
      rw [ha] at h
      dsimp only at h
      cases hw2 : wordRaw typeNameChar r2 with
      | none =>
        rw [hw2] at h; simp at h
        rw [← h.1]
        simp [String.data_append]
        intro hcontra
        exact absurd hcontra hwne
      | some pr3 =>
        rw [hw2] at h; simp at h
        rw [← h.1]
        simp [String.data_append]
        intro hcontra
        exact absurd hcontra hwne

theorem input_type_ne (l : List Char) (t : String) (r : List Char)
    (h : input_type l = some (t, r)) : t.data ≠ [] := by
  unfold input_type at h
  rcases orLongest_eq_some _ _ _ h with h | h
  · cases hf : fundamental_input_type l with
    | none => rw [hf] at h; exact absurd h (by simp)
    | some pr =>
      rw [hf] at h; simp at h
      obtain ⟨ss, r0⟩ := pr
      obtain ⟨s0, tl, r1, hss, hkw⟩ := oneOrMoreStr_head _ _ _ _ _ hf
      obtain ⟨t2, ht2⟩ := intercalate_cons_data " " s0 tl
      rw [← h.1]
      simp only [hss]
      rw [ht2]
      have := fundamentalKw_ne _ _ _ hkw
      intro hcontra
      exact this (List.append_eq_nil.mp hcontra).1
  · exact nonfundamental_ne _ _ _ h

theorem argument_type_input_ne (l : List Char) (a : Arg) (r : List Char)
    (h : argument_type l = some (a, r)) : a.input_type.data ≠ [] := by
  unfold argument_type at h
  dsimp only at h
  cases hi : input_type (match qualifier l with | some p => p | none => ("", l)).2 with
  | none => rw [hi] at h; exact absurd h (by simp)
  | some pr =>
    obtain ⟨t, r1⟩ := pr
    rw [hi] at h
    dsimp only at h
    simp at h
    rw [← h.1]
    exact input_type_ne _ _ _ hi

theorem argument_input_ne (l : List Char) (a : Arg) (r : List Char)
    (h : argument l = some (a, r)) : a.input_type.data ≠ [] := by
  unfold argument at h
  cases ht : argument_type l with
  | none => rw [ht] at h; exact absurd h (by simp)
  | some pr =>
    obtain ⟨a0, r0⟩ := pr
    rw [ht] at h
    dsimp only at h
    simp at h
    rw [← h.1]
    exact argument_type_input_ne _ _ _ ht

theorem arglist_cons (l : List Char) (args : List Arg) (va : Bool) (rest : List Char)
    (h : arglist l = some (args, va, rest)) :
    ∃ a more, args = a :: more ∧ a.input_type.data ≠ [] := by
  unfold arglist at h
  cases h1 : litP "(".data l with
  | none => rw [h1] at h; exact absurd h (by simp)
  | some r0 =>
    rw [h1] at h
    dsimp only at h
    cases h2 : argument r0 with
    | none => rw [h2] at h; exact absurd h (by simp)
    | some pr =>
      obtain ⟨a, r1⟩ := pr
      rw [h2] at h
      dsimp only at h
      refine ⟨a, ?_⟩
      cases h3 : litP ",".data (delimLoop (r1.length + 1) r1).2 with
      | none =>
        rw [h3] at h
        dsimp only at h
        cases h4 : litP ")".data (delimLoop (r1.length + 1) r1).2 with
        | none => rw [h4] at h; exact absurd h (by simp)
        | some r4 =>
          rw [h4] at h; simp at h
          exact ⟨_, h.1.symm, argument_input_ne _ _ _ h2⟩
      | some x =>
        rw [h3] at h
        dsimp only at h
        cases h5 : litP "...".data x with
        | none =>
          rw [h5] at h
          dsimp only at h
          cases h4 : litP ")".data (delimLoop (r1.length + 1) r1).2 with
          | none => rw [h4] at h; exact absurd h (by simp)
          | some r4 =>
            rw [h4] at h; simp at h
            exact ⟨_, h.1.symm, argument_input_ne _ _ _ h2⟩
        | some r5 =>
          rw [h5] at h
          dsimp only at h
          cases h4 : litP ")".data r5 with
          | none => rw [h4] at h; exact absurd h (by simp)
          | some r4 =>
            rw [h4] at h; simp at h
            exact ⟨_, h.1.symm, argument_input_ne _ _ _ h2⟩

theorem renderArg_ne (a : Arg) (h : a.input_type.data ≠ []) : (renderArg a).data ≠ [] := by
  rw [renderArg_data a]
  simp [List.append_eq_nil]
  intro h1 h2
  exact absurd h2 h

theorem intercalate_head_ne (sep : String) (s0 : String) (tl : List String)
    (h : s0.data ≠ []) : (String.intercalate sep (s0 :: tl)).data ≠ [] := by
  obtain ⟨t, ht⟩ := intercalate_cons_data sep s0 tl
  rw [ht]
  intro hc
  exact h (List.append_eq_nil.mp hc).1

/-- The grammar path never produces the fast-path outputs: its argument list is
nonempty and every rendered argument contains a nonempty type, so the joined
core is strictly wider than `()`. -/
theorem grammarPath_ret_ne (fn : String) (l : List Char) (p : String × String)
    (h : grammarPath fn l = .ret p) : p.2 ≠ "()" ∧ p.2 ≠ "() const" := by
  unfold grammarPath at h
  cases hcb : rindexL l ')' with
  | none => rw [hcb] at h; exact absurd h (by simp)
  | some cb =>
    rw [hcb] at h
    dsimp only at h
    cases harg : arglist (l.take (cb + 1)) with
    | none => rw [harg] at h; exact absurd h (by simp)
    | some res =>
      obtain ⟨args, va, rest⟩ := res
      rw [harg] at h
      dsimp only [elseBlock] at h
      obtain ⟨a, more, hargs, hne⟩ := arglist_cons _ _ _ _ harg
      simp only [NormOutcome.ret.injEq] at h
      set withVa := if va then args.map renderArg ++ ["..."] else args.map renderArg with hwv
      have hwv2 : ∃ tl, withVa = renderArg a :: tl := by
        rw [hwv, hargs]
        cases va <;> simp
      obtain ⟨tl, htl⟩ := hwv2
      set core := "(" ++ String.intercalate ", " withVa ++ ")" with hcore
      have hJ : (String.intercalate ", " withVa).data ≠ [] := by
        rw [htl]
        exact intercalate_head_ne _ _ _ (renderArg_ne a hne)
      have hcdata : core.data =
          '(' :: ((String.intercalate ", " withVa).data ++ [')']) := by
        rw [hcore]
        simp [String.data_append]
      have hA : core ≠ "()" := by
        intro hc
        have := congrArg String.data hc
        rw [hcdata] at this
        simp at this
        exact hJ this
      have hB : core ≠ "() const" := by
        intro hc
        have := congrArg String.data hc
        rw [hcdata] at this
        have hlast : core.data.getLast? = some ')' := by
          rw [hcdata]
          rw [show ('(' :: ((String.intercalate ", " withVa).data ++ [')'])) =
            ('(' :: (String.intercalate ", " withVa).data) ++ [')'] by simp]
          exact List.getLast?_concat _
        rw [hc] at hlast
        exact absurd hlast (by decide)
      have hp2 : p.2 = (if containsSub "const".data (l.drop (cb + 1)) then core ++ " const"
          else core) := by
        rw [← h]
      by_cases hsuf : containsSub "const".data (l.drop (cb + 1)) = true
      · rw [hp2, if_pos hsuf]
        constructor
        · intro hc
          have := congrArg String.data hc
          rw [String.data_append] at this
          have hlast2 : (core.data ++ (" const" : String).data).getLast? = some 't' := by
            rw [List.getLast?_append_of_ne_nil _ (by decide)]
            decide
          rw [this] at hlast2
          exact absurd hlast2 (by decide)
        · intro hc
          have := congrArg String.data hc
          rw [String.data_append] at this
          have h2 : core.data ++ (" const" : String).data =
              ("()" : String).data ++ (" const" : String).data := by
            rw [this]; decide
          have := List.append_cancel_right h2
          exact hA (by apply String.ext; rw [this])
      · rw [hp2, if_neg (by simpa using hsuf)]
        exact ⟨hA, hB⟩

/-- C2: when the region from the first `(` begins with `()`, `normalise`
returns `(name, "()")` exactly when the region stripped of `" override"`,
`" final"` and spaces is `()`, `()=0` or `()=default`, and `(name, "() const")`
exactly when it is `()const` or `()const=0`; the grammar path can produce
neither of those strings. -/
theorem normalise_fast_path (symbol : String) (i : Nat)
    (hidx : List.findIdx? (fun c => c == '(') symbol.data = some i)
    (hpre : "()".data.isPrefixOf (symbol.data.drop i) = true) :
    (normalise symbol = .ret (String.mk (symbol.data.take i), "()") ↔
      (stripFastSuffix (symbol.data.drop i) = "()".data ∨
       stripFastSuffix (symbol.data.drop i) = "()=0".data ∨
       stripFastSuffix (symbol.data.drop i) = "()=default".data)) ∧
    (normalise symbol = .ret (String.mk (symbol.data.take i), "() const") ↔
      (stripFastSuffix (symbol.data.drop i) = "()const".data ∨
       stripFastSuffix (symbol.data.drop i) = "()const=0".data)) := by
  have hname : normalise symbol =
      (if stripFastSuffix (symbol.data.drop i) = "()".data ∨
          stripFastSuffix (symbol.data.drop i) = "()=0".data ∨
          stripFastSuffix (symbol.data.drop i) = "()=default".data then
        .ret (String.mk (symbol.data.take i), "()")
      else if stripFastSuffix (symbol.data.drop i) = "()const".data ∨
          stripFastSuffix (symbol.data.drop i) = "()const=0".data then
        .ret (String.mk (symbol.data.take i), "() const")
      else grammarPath (String.mk (symbol.data.take i)) (symbol.data.drop i)) := by
    unfold normalise
    rw [hidx]
    dsimp only
    simp [hpre]
  set S := stripFastSuffix (symbol.data.drop i) with hS
  by_cases h1 : S = "()".data ∨ S = "()=0".data ∨ S = "()=default".data
  · rw [hname, if_pos h1]
    refine ⟨⟨fun _ => h1, fun _ => rfl⟩, ?_, ?_⟩
    · intro hc
      rw [NormOutcome.ret.injEq] at hc
      have := congrArg Prod.snd hc
      dsimp only at this
      exact absurd this (by decide)
    · intro hc
      exfalso
      rcases hc with hc | hc <;> rcases h1 with h1 | h1 | h1 <;> rw [h1] at hc <;>
        exact absurd hc (by decide)
  · rw [hname, if_neg h1]
    by_cases h2 : S = "()const".data ∨ S = "()const=0".data
    · rw [if_pos h2]
      refine ⟨⟨?_, ?_⟩, fun _ => h2, fun _ => rfl⟩
      · intro hc
        rw [NormOutcome.ret.injEq] at hc
        have := congrArg Prod.snd hc
        dsimp only at this
        exact absurd this (by decide)
      · intro hc
        exact absurd hc h1
    · rw [if_neg h2]
      refine ⟨⟨?_, ?_⟩, ?_, ?_⟩
      · intro hc
        obtain ⟨hne, _⟩ := grammarPath_ret_ne _ _ _ hc
        exact absurd rfl hne
      · intro hc
        exact absurd hc h1
      · intro hc
        obtain ⟨_, hne⟩ := grammarPath_ret_ne _ _ _ hc
        exact absurd rfl hne
      · intro hc
        exact absurd hc h2

theorem normalise_fast_path_witness :
    (List.findIdx? (fun c => c == '(') ("Volume::printAll() const" : String).data = some 16) ∧
    "()".data.isPrefixOf (("Volume::printAll() const" : String).data.drop 16) = true ∧
    normalise "Volume::printAll() const" = .ret ("Volume::printAll", "() const") := by
  refine ⟨by decide, by decide, ?_⟩
  have h := (normalise_fast_path "Volume::printAll() const" 16 (by decide) (by decide)).2
  exact (h.mpr (by decide)).trans (by decide)

/-- C7, counterexample: the region up to the last `)` of `f(int))` is not in
the grammar's language (the parse leaves `)` unconsumed), yet `normalise`
returns a result built from the matched prefix instead of failing — because
`parseString` does not require the whole region to be consumed. -/
theorem normalise_partial_parse_cex :
    fastPathTaken "f(int))" = false ∧
    rindexL (("f(int))" : String).data.drop 1) ')' = some 5 ∧
    arglist ((("f(int))" : String).data.drop 1).take 6) =
      some ([{ qualifier := "", input_type := "int", pointer_or_reference1 := "",
               const_pointer_or_reference := "", pointer_or_reference2 := "" }], false, [')']) ∧
    normalise "f(int))" = .ret ("f", "(int)") := by
  exact ⟨by decide, by decide, by decide, by decide⟩

/-- C7, amended: off the fast path, a region with no `)` at all makes
`normalise` fail with the `ValueError`, and a region on which the grammar
matches no prefix makes it fail with the `ParseException`; in both cases no
partial result is returned.  (When the grammar matches a proper prefix of the
region, however, `normalise` silently returns a result built from that prefix
alone.) -/
theorem normalise_failure_propagation (symbol : String) (i : Nat)
    (hidx : List.findIdx? (fun c => c == '(') symbol.data = some i)
    (hfast : fastPathTaken symbol = false) :
    (rindexL (symbol.data.drop i) ')' = none → normalise symbol = .valueError) ∧
    (∀ cb, rindexL (symbol.data.drop i) ')' = some cb →
      arglist ((symbol.data.drop i).take (cb + 1)) = none →
      normalise symbol = .parseException) := by
  constructor
  · intro hno
    rw [normalise_eq_grammarPath symbol i hidx hfast]
    unfold grammarPath
    rw [hno]
  · intro cb hcb hparse
    rw [normalise_eq_grammarPath symbol i hidx hfast]
    unfold grammarPath
    rw [hcb]
    dsimp only
    rw [hparse]

theorem normalise_failure_propagation_witness :
    (List.findIdx? (fun c => c == '(') ("f(" : String).data = some 1) ∧
    fastPathTaken "f(" = false ∧
    ((rindexL (("f(" : String).data.drop 1) ')' = none → normalise "f(" = .valueError) ∧
     (∀ cb, rindexL (("f(" : String).data.drop 1) ')' = some cb →
        arglist ((("f(" : String).data.drop 1).take (cb + 1)) = none →
        normalise "f(" = .parseException)) := by
  exact ⟨by decide, by decide, normalise_failure_propagation "f(" 1 (by decide) (by decide)⟩

/-- C8, counterexample: the fast path accepts `f()`, but with the fast path
removed the grammar path raises a `ParseException` on the same input —
`delimitedList(argument)` requires at least one argument, so `()` is not in
the grammar's language and the two paths do not agree. -/
theorem fast_path_not_optimisation_cex :
    fastPathTaken "f()" = true ∧ normalise "f()" = .ret ("f", "()") ∧
    normaliseFull "f()" = .parseException := by
  exact ⟨by decide, by decide, by decide⟩

theorem replaceGo_count (c : Char) (pat rep : List Char) (h1 : c ∉ pat) (h2 : c ∉ rep)
    (fuel : Nat) : ∀ l, (replaceGo pat rep fuel l).count c = l.count c := by
  induction fuel with
  | zero => intro l; rfl
  | succ fuel ih =>
    intro l
    cases l with
    | nil => rfl
    | cons x xs =>
      unfold replaceGo
      dsimp only
      by_cases hp : pat.isPrefixOf (x :: xs) = true
      · rw [if_pos hp]
        obtain ⟨t, htl⟩ := List.isPrefixOf_iff_prefix.mp hp
        have hdrop : (x :: xs).drop pat.length = t := by
          rw [← htl, List.drop_left]
        rw [List.count_append, ih, hdrop, List.count_eq_zero.mpr h2, ← htl,
          List.count_append, List.count_eq_zero.mpr h1]
      · rw [if_neg hp]
        simp [List.count_cons, ih xs]

theorem stripFastSuffix_count (l : List Char) :
    (stripFastSuffix l).count ')' = l.count ')' := by
  unfold stripFastSuffix pyReplace
  rw [replaceGo_count ')' " ".data "".data (by decide) (by decide),
    replaceGo_count ')' " final".data "".data (by decide) (by decide),
    replaceGo_count ')' " override".data "".data (by decide) (by decide)]

theorem rindexL_none (l : List Char) (c : Char) (h : c ∉ l) : rindexL l c = none := by
  induction l with
  | nil => rfl
  | cons x xs ih =>
    unfold rindexL
    rw [ih (fun hm => h (List.mem_cons_of_mem _ hm))]
    have hx : (x == c) = false := by
      simp only [beq_eq_false_iff_ne, ne_eq]
      exact fun he => h (he ▸ List.mem_cons_self _ _)
    simp [hx]

/-- C8, amended: the fast path is essential rather than a pure optimisation —
on every input it accepts, the grammar path with the fast path removed fails
with a `ParseException`, because the region up to the last `)` is exactly `()`
and `delimitedList(argument)` demands at least one argument. -/
theorem fast_path_essential (symbol : String) (h : fastPathTaken symbol = true) :
    normaliseFull symbol = .parseException := by
  unfold fastPathTaken at h
  cases hidx : List.findIdx? (fun c => c == '(') symbol.data with
  | none => rw [hidx] at h; exact absurd h (by simp)
  | some i =>
    rw [hidx] at h
    dsimp only at h
    rw [Bool.and_eq_true] at h
    obtain ⟨hpre, hmem⟩ := h
    obtain ⟨rest2, hr⟩ := List.isPrefixOf_iff_prefix.mp hpre
    have hc1 : (stripFastSuffix (symbol.data.drop i)).count ')' = 1 := by
      simp only [Bool.or_eq_true, beq_iff_eq] at hmem
      rcases hmem with ((((hm | hm) | hm) | hm) | hm) <;> rw [hm] <;> decide
    have hc2 : (symbol.data.drop i).count ')' = 1 := by
      rw [← stripFastSuffix_count]; exact hc1
    have hrest : ')' ∉ rest2 := by
      intro hm
      have hpos : 0 < rest2.count ')' := List.count_pos_iff.mpr hm
      have heq : (symbol.data.drop i).count ')' = 1 + rest2.count ')' := by
        rw [← hr, List.count_append,
          show ("()".data : List Char).count ')' = 1 from by decide]
      omega
    have hri : rindexL (symbol.data.drop i) ')' = some 1 := by
      rw [← hr]
      have h0 : rindexL rest2 ')' = none := rindexL_none _ _ hrest
      show rindexL ('(' :: ')' :: rest2) ')' = some 1
      simp [rindexL, h0]
    have hreg : (symbol.data.drop i).take (1 + 1) = "()".data := by
      rw [← hr]; rfl
    unfold normaliseFull
    rw [hidx]
    dsimp only
    unfold grammarPath
    rw [hri]
    dsimp only
    rw [hreg, show arglist "()".data = none by decide]

theorem fast_path_essential_witness :
    fastPathTaken "Foo::bar()=0" = true ∧
      normaliseFull "Foo::bar()=0" = .parseException := by
  exact ⟨by decide, fast_path_essential "Foo::bar()=0" (by decide)⟩

theorem regionStr_data (items : List String) :
    (regionStr items).data = '<' :: (items.map (fun i => ' ' :: i.data)).flatten ++ [' ', '>'] := by
  induction items with
  | nil => rfl
  | cons s tl ih =>
    unfold regionStr at ih ⊢
    simp only [List.foldr_cons, String.data_append, List.map_cons, List.flatten_cons,
      List.cons_append, List.nil_append] at ih ⊢
    injection ih with h1 htail
    rw [htail]
    simp

theorem itemOk_facts (s : String) (h : ItemOk s) :
    s.data ≠ [] ∧ headWs s = false ∧ lastWs s = false := by
  induction h with
  | tok s h1 h2 h3 => exact ⟨h1, h2, h3⟩
  | region items hall ih =>
    have hd := regionStr_data items
    refine ⟨?_, ?_, ?_⟩
    · rw [hd]; simp
    · unfold headWs
      rw [hd]
      rfl
    · unfold lastWs
      rw [hd]
      have : ('<' :: (items.map (fun i => ' ' :: i.data)).flatten ++ [' ', '>']) =
          (('<' :: (items.map (fun i => ' ' :: i.data)).flatten ++ [' ']) ++ ['>']) := by
        simp
      rw [this, List.getLast?_concat]
      decide

theorem quotedBody_split (q : Char) (fuel : Nat) :
    ∀ m r, quotedBody q fuel m = some r → ∃ mid, m = mid ++ q :: r := by
  induction fuel with
  | zero => intro m r h; exact absurd h (by simp [quotedBody])
  | succ fuel ih =>
    intro m r h
    unfold quotedBody at h
    cases m with
    | nil => exact absurd h (by simp)
    | cons c cs =>
      dsimp only at h
      by_cases hq : (c == q) = true
      · rw [if_pos hq] at h
        have hc : c = q := beq_iff_eq.mp hq
        cases cs with
        | nil =>
          simp at h
          exact ⟨[], by simp [hc, ← h]⟩
        | cons c2 cs2 =>
          dsimp only at h
          by_cases hq2 : (c2 == q) = true
          · rw [if_pos hq2] at h
            cases hb : quotedBody q fuel cs2 with
            | some r2 =>
              rw [hb] at h
              simp at h
              obtain ⟨mid2, hm2⟩ := ih cs2 r2 hb
              exact ⟨q :: q :: mid2, by
                simp [hc, beq_iff_eq.mp hq2, hm2, h]⟩
            | none =>
              rw [hb] at h
              simp at h
              exact ⟨[], by simp [hc, ← h]⟩
          · rw [if_neg hq2] at h
            simp at h
            exact ⟨[], by simp [hc, ← h]⟩
      · rw [if_neg hq] at h
        by_cases hbs : (c == bsChar) = true
        · rw [if_pos hbs] at h
          cases cs with
          | nil => exact absurd h (by simp)
          | cons e cs2 =>
            dsimp only at h
            by_cases hx : (e == 'x') = true
            · rw [if_pos hx] at h
              by_cases hhx : (cs2.takeWhile hexDigit).isEmpty = true
              · rw [if_pos hhx] at h; exact absurd h (by simp)
              · rw [if_neg hhx] at h
                obtain ⟨mid2, hm2⟩ := ih _ _ h
                refine ⟨c :: e :: (cs2.takeWhile hexDigit ++ mid2), ?_⟩
                have key := List.takeWhile_append_dropWhile (p := hexDigit) (l := cs2)
                have hdw : cs2.drop (cs2.takeWhile hexDigit).length = cs2.dropWhile hexDigit := by
                  nth_rewrite 2 [← key]
                  rw [List.drop_left]
                have hcs : cs2 = cs2.takeWhile hexDigit ++ (mid2 ++ q :: r) := by
                  rw [← hm2, hdw, key]
                calc c :: e :: cs2
                    = c :: e :: (cs2.takeWhile hexDigit ++ (mid2 ++ q :: r)) := by rw [← hcs]
                  _ = (c :: e :: (cs2.takeWhile hexDigit ++ mid2)) ++ q :: r := by simp
            · rw [if_neg hx] at h
              obtain ⟨mid2, hm2⟩ := ih cs2 r h
              exact ⟨c :: e :: mid2, by simp [hm2]⟩
        · rw [if_neg hbs] at h
          by_cases hnl : (c == nlChar || c == crChar) = true
          · rw [if_pos hnl] at h; exact absurd h (by simp)
          · rw [if_neg hnl] at h
            obtain ⟨mid2, hm2⟩ := ih cs r h
            exact ⟨c :: mid2, by simp [hm2]⟩

theorem quotedRaw_facts (l : List Char) (s : String) (r : List Char)
    (h : quotedRaw l = some (s, r)) : s.data ≠ [] ∧ headWs s = false ∧ lastWs s = false := by
  unfold quotedRaw at h
  cases l with
  | nil => exact absurd h (by simp)
  | cons c cs =>
    dsimp only at h
    by_cases hq : (c == '"' || c == sqChar) = true
    · rw [if_pos hq] at h
      cases hb : quotedBody c cs.length cs with
      | none => rw [hb] at h; exact absurd h (by simp)
      | some r2 =>
        rw [hb] at h
        simp at h
        obtain ⟨mid, hm⟩ := quotedBody_split c cs.length cs r2 hb
        have htake : (c :: cs).take (cs.length + 1 - r2.length) = c :: (mid ++ [c]) := by
          rw [hm]
          have hlen : (mid ++ c :: r2).length + 1 - r2.length = mid.length + 2 := by
            simp
            omega
          rw [hlen, List.take_succ_cons]
          congr 1
          rw [show mid ++ c :: r2 = (mid ++ [c]) ++ r2 by simp]
          exact List.take_left' (by simp)
        have hsd : s.data = c :: (mid ++ [c]) := by
          rw [← h.1]
          exact htake
        have hcq : c = '"' ∨ c = sqChar := by
          simpa using hq
        have hcw : isWsChar c = false := by
          rcases hcq with hcq | hcq <;> rw [hcq] <;> decide
        refine ⟨by rw [hsd]; simp, ?_, ?_⟩
        · unfold headWs
          rw [hsd]
          exact hcw
        · unfold lastWs
          rw [hsd]
          rw [show c :: (mid ++ [c]) = (c :: mid) ++ [c] by simp, List.getLast?_concat]
          exact hcw
    · rw [if_neg hq] at h
      exact absurd h (by simp)

theorem contentRun_chars (l : List Char) : ∀ c ∈ (contentRun l).1, isWsChar c = false := by
  induction l with
  | nil => intro c hc; simp [contentRun] at hc
  | cons x xs ih =>
    intro c hc
    unfold contentRun at hc
    dsimp only at hc
    by_cases hstop : (isWsChar x || x == '<' || x == '>') = true
    · rw [if_pos hstop] at hc
      simp at hc
    · rw [if_neg hstop] at hc
      cases hq : quotedRaw (x :: xs) with
      | some v => rw [hq] at hc; simp at hc
      | none =>
        rw [hq] at hc
        dsimp only at hc
        rcases List.mem_cons.mp hc with hc | hc
        · subst hc
          simp only [Bool.or_eq_true, not_or] at hstop
          simpa using hstop.1.1
        · exact ih c hc

theorem contentP_facts (l : List Char) (s : String) (r : List Char)
    (h : contentP l = some (s, r)) : s.data ≠ [] ∧ headWs s = false ∧ lastWs s = false := by
  unfold contentP at h
  cases hcr : contentRun (skipWs l) with
  | mk tok rr =>
    rw [hcr] at h
    cases tok with
    | nil => exact absurd h (by simp)
    | cons c tks =>
      simp at h
      have hsd : s.data = c :: tks := by rw [← h.1]
      have hchars : ∀ x ∈ (c :: tks), isWsChar x = false := by
        intro x hx
        apply contentRun_chars (skipWs l)
        rw [hcr]
        exact hx
      refine ⟨by rw [hsd]; simp, ?_, ?_⟩
      · unfold headWs
        rw [hsd]
        exact hchars c (by simp)
      · unfold lastWs
        rw [hsd]
        cases hgl : (c :: tks).getLast? with
        | none => simp at hgl
        | some y => exact hchars y (List.mem_of_getLast?_eq_some hgl)

theorem angleLoop_ok (fuel : Nat) : ∀ l, ∀ i ∈ (angleLoop fuel l).1, ItemOk i := by
  induction fuel with
  | zero => intro l i hi; simp [angleLoop] at hi
  | succ fuel ih =>
    intro l i hi
    unfold angleLoop at hi
    cases hq : quotedP l with
    | some pr =>
      obtain ⟨s, r⟩ := pr
      rw [hq] at hi
      dsimp only at hi
      rcases List.mem_cons.mp hi with hi | hi
      · subst hi
        obtain ⟨h1, h2, h3⟩ := quotedRaw_facts (skipWs l) _ _ hq
        exact ItemOk.tok _ h1 h2 h3
      · exact ih r i hi
    | none =>
      rw [hq] at hi
      dsimp only at hi
      split at hi
      · -- nested region branch
        split at hi
        · rcases List.mem_cons.mp hi with hi | hi
          · subst hi
            exact ItemOk.region _ (ih _)
          · exact ih _ i hi
        · simp at hi
      · -- content branch
        cases hc : contentP l with
        | some pr =>
          obtain ⟨s, r⟩ := pr
          rw [hc] at hi
          dsimp only at hi
          rcases List.mem_cons.mp hi with hi | hi
          · subst hi
            obtain ⟨h1, h2, h3⟩ := contentP_facts l _ _ hc
            exact ItemOk.tok _ h1 h2 h3
          · exact ih r i hi
        | none =>
          rw [hc] at hi
          simp at hi

theorem angleItemsRaw_ok (fuel : Nat) (l : List Char) (items : List String) (r : List Char)
    (h : angleItemsRaw fuel l = some (items, r)) : ∀ i ∈ items, ItemOk i := by
  unfold angleItemsRaw at h
  split at h
  · dsimp only at h
    split at h
    · simp at h
      intro i hi
      apply angleLoop_ok fuel
      rw [h.1]
      exact hi
    · exact absurd h (by simp)
  · exact absurd h (by simp)

/-- C5: every region parsed by `angle_bracket_pair` flattens to `<`, then each
element preceded by exactly one space — elements are nonempty and neither
start nor end in whitespace, so the single inserted space is the only one —
then one space and `>`; a nested region appears as an element that is itself
of this shape, recursively at every level. -/
theorem template_region_spacing (l : List Char) (s : String) (r : List Char)
    (h : angle_bracket_pairP l = some (s, r)) :
    ∃ items, s = regionStr items ∧ (∀ i ∈ items, ItemOk i) ∧
      s.data = '<' :: (items.map (fun i => ' ' :: i.data)).flatten ++ [' ', '>'] ∧
      ∀ i ∈ items, i.data ≠ [] ∧ headWs i = false ∧ lastWs i = false := by
  unfold angle_bracket_pairP angle_bracket_pairRaw at h
  cases ha : angleItemsRaw (skipWs l).length (skipWs l) with
  | none => rw [ha] at h; exact absurd h (by simp)
  | some pr =>
    obtain ⟨items, r2⟩ := pr
    rw [ha] at h
    simp at h
    obtain ⟨h1, h2⟩ := h
    have hok := angleItemsRaw_ok _ _ _ _ ha
    refine ⟨items, h1.symm, hok, ?_, fun i hi => itemOk_facts i (hok i hi)⟩
    rw [← h1]
    exact regionStr_data items

theorem template_region_spacing_witness :
    angle_bracket_pairP "<T>".data = some ("< T >", []) ∧
    (∃ items, ("< T >" : String) = regionStr items ∧ (∀ i ∈ items, ItemOk i) ∧
      ("< T >" : String).data = '<' :: (items.map (fun i => ' ' :: i.data)).flatten ++ [' ', '>'] ∧
      ∀ i ∈ items, i.data ≠ [] ∧ headWs i = false ∧ lastWs i = false) := by
  exact ⟨by decide, template_region_spacing "<T>".data "< T >" [] (by decide)⟩

theorem innerChars_nil : innerChars .nil = [] := rfl

theorem innerChars_cons (t : PTok) (ts : PList) :
    innerChars (.cons t ts) = ' ' :: ((itemStr t).data ++ innerChars ts) := by
  simp [innerChars, pipeItems]

theorem innerChars_shape (ts : PList) :
    innerChars ts = [] ∨ ∃ z, innerChars ts = ' ' :: z := by
  cases ts with
  | nil => exact Or.inl rfl
  | cons t ts' => exact Or.inr ⟨_, innerChars_cons t ts'⟩

theorem okTokChar_facts (c : Char) (h : okTokChar c = true) :
    isWsChar c = false ∧ (c == '<') = false ∧ (c == '>') = false ∧
      (c == '"') = false ∧ (c == sqChar) = false := by
  unfold okTokChar at h
  rw [Bool.not_eq_true'] at h
  simp only [Bool.or_eq_false_iff] at h
  obtain ⟨⟨⟨⟨h1, h2⟩, h3⟩, h4⟩, h5⟩ := h
  exact ⟨h1, h2, h3, h4, h5⟩

theorem skipWs_cons_pos (c : Char) (x : List Char) (h : isWsChar c = true) :
    skipWs (c :: x) = skipWs x := by
  simp [skipWs, List.dropWhile_cons, h]

theorem skipWs_cons_neg (c : Char) (x : List Char) (h : isWsChar c = false) :
    skipWs (c :: x) = c :: x := by
  simp [skipWs, List.dropWhile_cons, h]

theorem quotedRaw_not_quote (c : Char) (x : List Char) (h1 : (c == '"') = false)
    (h2 : (c == sqChar) = false) : quotedRaw (c :: x) = none := by
  unfold quotedRaw
  dsimp only
  rw [h1, h2]
  rfl

theorem contentRun_gt (x : List Char) : contentRun ('>' :: x) = ([], '>' :: x) := by
  unfold contentRun
  dsimp only
  rw [if_pos (by decide)]

theorem contentRun_exact (tok r' : List Char) (htok : ∀ c ∈ tok, okTokChar c = true) :
    contentRun (tok ++ ' ' :: r') = (tok, ' ' :: r') := by
  induction tok with
  | nil =>
    show contentRun (' ' :: r') = ([], ' ' :: r')
    unfold contentRun
    dsimp only
    rw [if_pos (by decide)]
  | cons c cst ih =>
    have hc := okTokChar_facts c (htok c (by simp))
    show contentRun (c :: (cst ++ ' ' :: r')) = (c :: cst, ' ' :: r')
    unfold contentRun
    dsimp only
    rw [hc.1, hc.2.1, hc.2.2.1]
    rw [quotedRaw_not_quote c _ hc.2.2.2.1 hc.2.2.2.2]
    dsimp only
    rw [ih (fun d hd => htok d (by simp [hd]))]
    simp

theorem angleLoop_render (fuel : Nat) : ∀ ts rest0, plistWf ts = true →
    (innerChars ts ++ ' ' :: '>' :: rest0).length < fuel →
    angleLoop fuel (innerChars ts ++ ' ' :: '>' :: rest0) = (pipeItems ts, ' ' :: '>' :: rest0) := by
  induction fuel with
  | zero => intro ts rest0 _ hlen; exact absurd hlen (Nat.not_lt_zero _)
  | succ fuel ih =>
    intro ts rest0 hwf hlen
    cases ts with
    | nil =>
      rw [innerChars_nil, List.nil_append]
      have hs : skipWs (' ' :: '>' :: rest0) = '>' :: rest0 := by
        rw [skipWs_cons_pos _ _ (by decide), skipWs_cons_neg _ _ (by decide)]
      show angleLoop (fuel + 1) (' ' :: '>' :: rest0) = ([], ' ' :: '>' :: rest0)
      unfold angleLoop
      rw [show quotedP (' ' :: '>' :: rest0) = none from by
        unfold quotedP
        rw [hs]
        exact quotedRaw_not_quote _ _ (by decide) (by decide)]
      dsimp only
      rw [hs]
      split
      · rename_i r heq
        exact absurd heq (by intro hcontra; injection hcontra with h1 h2; exact absurd h1 (by decide))
      · rw [show contentP (' ' :: '>' :: rest0) = none from by
          unfold contentP
          rw [hs, contentRun_gt]]
    | cons t ts' =>
      have hwf2 : ptokWf t = true ∧ plistWf ts' = true := by
        simpa [plistWf, Bool.and_eq_true] using hwf
      have hlen2 : ((itemStr t).data ++ (innerChars ts' ++ ' ' :: '>' :: rest0)).length + 1 < fuel + 1 := by
        rw [innerChars_cons] at hlen
        simpa using hlen
      obtain ⟨RR, hRR⟩ : ∃ RR, innerChars ts' ++ ' ' :: '>' :: rest0 = ' ' :: RR := by
        rcases innerChars_shape ts' with h0 | ⟨z, hz⟩
        · exact ⟨'>' :: rest0, by simp [h0]⟩
        · exact ⟨z ++ ' ' :: '>' :: rest0, by rw [hz]; rfl⟩
      rw [innerChars_cons,
        show (' ' :: ((itemStr t).data ++ innerChars ts')) ++ ' ' :: '>' :: rest0
          = ' ' :: ((itemStr t).data ++ (innerChars ts' ++ ' ' :: '>' :: rest0)) from by simp]
      cases t with
      | str s =>
        obtain ⟨hne, hchars⟩ : s.data ≠ [] ∧ ∀ c ∈ s.data, okTokChar c = true := by
          have h0 := hwf2.1
          simp only [ptokWf, Bool.and_eq_true] at h0
          exact ⟨by simpa [List.isEmpty_iff] using h0.1, by simpa using h0.2⟩
        rw [show itemStr (.str s) = s from rfl]
        cases hsd : s.data with
        | nil => exact absurd hsd hne
        | cons c0 s' =>
          rw [← hsd]
          have hc0 := okTokChar_facts c0 (hchars c0 (by rw [hsd]; simp))
          have hLr : s.data ++ (innerChars ts' ++ ' ' :: '>' :: rest0)
              = c0 :: (s' ++ (innerChars ts' ++ ' ' :: '>' :: rest0)) := by
            rw [hsd]; rfl
          have hsk : skipWs (' ' :: (s.data ++ (innerChars ts' ++ ' ' :: '>' :: rest0)))
              = s.data ++ (innerChars ts' ++ ' ' :: '>' :: rest0) := by
            rw [skipWs_cons_pos _ _ (by decide), hLr, skipWs_cons_neg _ _ hc0.1]
          unfold angleLoop
          rw [show quotedP (' ' :: (s.data ++ (innerChars ts' ++ ' ' :: '>' :: rest0))) = none from by
            unfold quotedP
            rw [hsk, hLr]
            exact quotedRaw_not_quote _ _ hc0.2.2.2.1 hc0.2.2.2.2]
          dsimp only
          rw [hsk, hLr]
          split
          · rename_i r heq
            have hcc : c0 = '<' := by
              have hh := congrArg List.head? heq
              simpa using hh
            rw [hcc] at hc0
            exact absurd hc0.2.1 (by decide)
          · rw [show contentP (' ' :: c0 :: (s' ++ (innerChars ts' ++ ' ' :: '>' :: rest0)))
                = some (s, innerChars ts' ++ ' ' :: '>' :: rest0) from by
              rw [show (' ' :: c0 :: (s' ++ (innerChars ts' ++ ' ' :: '>' :: rest0)))
                  = ' ' :: (s.data ++ (innerChars ts' ++ ' ' :: '>' :: rest0)) from by rw [hLr]]
              unfold contentP
              rw [hsk, hRR, contentRun_exact s.data RR hchars]
              rw [hsd]
              dsimp only
              rw [← hsd, ← hRR]]
            dsimp only
            rw [ih ts' rest0 hwf2.2 (by
              rw [show itemStr (.str s) = s from rfl] at hlen2
              simp only [List.length_append] at hlen2 ⊢
              omega)]
            rfl
      | nested ts2 =>
        have hwf3 : plistWf ts2 = true := by simpa [ptokWf] using hwf2.1
        have hitem : (itemStr (.nested ts2)).data
            = '<' :: (innerChars ts2 ++ ' ' :: '>' :: []) := by
          rw [show itemStr (.nested ts2) = regionStr (pipeItems ts2) from rfl, regionStr_data]
          rfl
        rw [hitem,
          show ('<' :: (innerChars ts2 ++ ' ' :: '>' :: [])) ++ (innerChars ts' ++ ' ' :: '>' :: rest0)
            = '<' :: (innerChars ts2 ++ ' ' :: '>' :: (innerChars ts' ++ ' ' :: '>' :: rest0)) from by
          simp]
        have hsk : skipWs (' ' :: '<' :: (innerChars ts2 ++ ' ' :: '>' :: (innerChars ts' ++ ' ' :: '>' :: rest0)))
            = '<' :: (innerChars ts2 ++ ' ' :: '>' :: (innerChars ts' ++ ' ' :: '>' :: rest0)) := by
          rw [skipWs_cons_pos _ _ (by decide), skipWs_cons_neg _ _ (by decide)]
        unfold angleLoop
        rw [show quotedP (' ' :: '<' :: (innerChars ts2 ++ ' ' :: '>' :: (innerChars ts' ++ ' ' :: '>' :: rest0))) = none from by
          unfold quotedP
          rw [hsk]
          exact quotedRaw_not_quote _ _ (by decide) (by decide)]
        dsimp only
        rw [hsk]
        split
        · rename_i r heq
          have hr : r = innerChars ts2 ++ ' ' :: '>' :: (innerChars ts' ++ ' ' :: '>' :: rest0) := by
            injection heq with h1 h2; exact h2.symm
          subst hr
          rw [ih ts2 (innerChars ts' ++ ' ' :: '>' :: rest0) hwf3 (by
            rw [hitem] at hlen2
            simp only [List.length_cons, List.length_append] at hlen2 ⊢
            omega)]
          dsimp only
          rw [show skipWs (' ' :: '>' :: (innerChars ts' ++ ' ' :: '>' :: rest0))
              = '>' :: (innerChars ts' ++ ' ' :: '>' :: rest0) from by
            rw [skipWs_cons_pos _ _ (by decide), skipWs_cons_neg _ _ (by decide)]]
          split
          · rename_i r2 heq2
            have hr2 : r2 = innerChars ts' ++ ' ' :: '>' :: rest0 := by
              injection heq2 with h1 h2; exact h2.symm
            subst hr2
            rw [ih ts' rest0 hwf2.2 (by
              rw [hitem] at hlen2
              simp only [List.length_cons, List.length_append] at hlen2 ⊢
              omega)]
            rfl
          · rename_i hne2
            exact (hne2 _ rfl).elim
        · rename_i hne1
          exact (hne1 _ rfl).elim

/-- C6, counterexample: token lists produced by the template tokenizer may
contain unmatched double quotes (here because a newline separated them);
re-parsing the flattened rendering then pairs the quotes into a single quoted
token, so re-normalising changes the string and flattening is not idempotent. -/
theorem template_idempotent_cex :
    angle_bracket_pairP "<a\"b\nc\"d>".data = some ("< a\"b c\"d >", []) ∧
    angle_bracket_pairP "< a\"b c\"d >".data = some ("< a \"b c\" d >", []) ∧
    ("< a \"b c\" d >" : String) ≠ "< a\"b c\"d >" := by
  exact ⟨by decide, by decide, by decide⟩

/-- C6, amended: for template token trees whose plain tokens are nonempty and
contain no whitespace, angle bracket or quote characters, flattening is
idempotent — parsing the flattened rendering reproduces exactly the same
token list and hence the same rendering, with nothing left over. -/
theorem template_idempotent (ts : PList) (h : plistWf ts = true) :
    angle_bracket_pairP (pipeRegion ts).data = some (pipeRegion ts, []) := by
  have hd : (pipeRegion ts).data = '<' :: (innerChars ts ++ ' ' :: '>' :: []) := by
    unfold pipeRegion
    rw [regionStr_data]
    rfl
  have hlen : (innerChars ts ++ ' ' :: '>' :: ([] : List Char)).length
      < ('<' :: (innerChars ts ++ ' ' :: '>' :: ([] : List Char))).length := by
    simp
  rw [hd]
  unfold angle_bracket_pairP
  rw [skipWs_cons_neg _ _ (by decide)]
  unfold angle_bracket_pairRaw angleItemsRaw
  dsimp only
  have hskgt : skipWs (' ' :: '>' :: ([] : List Char)) = '>' :: [] := by
    rw [skipWs_cons_pos _ _ (by decide), skipWs_cons_neg _ _ (by decide)]
  split
  · rename_i items r heq
    split at heq
    · rename_i rb heqb
      have hrb : rb = innerChars ts ++ ' ' :: '>' :: [] := by
        injection heqb with h1 h2; exact h2.symm
      subst hrb
      rw [angleLoop_render _ ts [] h hlen] at heq
      dsimp only at heq
      rw [hskgt] at heq
      split at heq
      · rename_i r2 heq2
        have hr2 : r2 = [] := by injection heq2 with h1 h2; exact h2.symm
        subst hr2
        simp only [Option.some.injEq, Prod.mk.injEq] at heq
        rw [← heq.1, heq.2]
        rfl
      · exact absurd heq (by simp)
    · exact absurd heq (by simp)
  · rename_i heq
    exfalso
    split at heq
    · rename_i rb heqb
      have hrb : rb = innerChars ts ++ ' ' :: '>' :: [] := by
        injection heqb with h1 h2; exact h2.symm
      subst hrb
      rw [angleLoop_render _ ts [] h hlen] at heq
      dsimp only at heq
      rw [hskgt] at heq
      split at heq
      · exact absurd heq (by simp)
      · rename_i hne
        exact (hne _ rfl).elim
    · rename_i hne
      exact (hne _ rfl).elim

theorem template_idempotent_witness :
    plistWf (.cons (.str "int") (.cons (.nested (.cons (.str "T") .nil)) .nil)) = true ∧
    angle_bracket_pairP
        (pipeRegion (.cons (.str "int") (.cons (.nested (.cons (.str "T") .nil)) .nil))).data
      = some (pipeRegion (.cons (.str "int") (.cons (.nested (.cons (.str "T") .nil)) .nil)), []) := by
  exact ⟨by rfl, template_idempotent _ (by rfl)⟩

